import Mathlib

/-!
Verification of the text-normalization and boundary-tokenization pipeline of
`onmt/transforms/custom_transforms.py`.

Strings are modelled as `List Char`; a sentence (a list of whitespace-delimited
tokens) is a `List (List Char)`.  The three transforms `Normalize._normalize`,
`PreTokenize._pretok_gen` / `_pre_tokenize` and `CleanTED.clean` are embedded
directly from the source.  The external library call
`unicodedata.normalize(form, s)` is not part of the repository; it is modelled
as an explicit function parameter `uninorm : List Char → List Char`, and the
theorems that depend on its behaviour take the Unicode-standard guarantees they
need as hypotheses on that parameter.
-/

set_option maxHeartbeats 1000000

/-- The 32 characters of Python's `string.punctuation`, in source order. -/
def pythonPunctuation : List Char :=
  ['!', '"', '#', '$', '%', '&', '\x27', '(', ')', '*', '+', ',', '-', '.', '/',
   ':', ';', '<', '=', '>', '?', '@', '[', '\\', ']', '^', '_', '\x60', '\x7b', '|', '\x7d', '~']

/-- The 6 characters of Python's `string.whitespace`. -/
def pythonWhitespace : List Char := [' ', '\t', '\n', '\r', '\x0b', '\x0c']

/-- The characters Python's `str.split()` and `str.strip()` treat as whitespace
(the CPython `Py_UNICODE_ISSPACE` set). -/
def pySpaceChars : List Char :=
  [' ', '\t', '\n', '\r', '\x0b', '\x0c', '\x1c', '\x1d', '\x1e', '\x1f',
   '\x85', '\xa0', ' ', ' ', ' ', ' ', ' ', ' ',
   ' ', ' ', ' ', ' ', ' ', ' ', ' ',
   ' ', ' ', ' ', '　']

/-- Whether `str.split()` splits at the character `c`. -/
def pyIsSpace (c : Char) : Bool := pySpaceChars.contains c

/-- Fuel-indexed worker for `pySplit`; the fuel only serves to make the
recursion structural, `pySplit` always supplies enough of it. -/
def pySplitF : Nat → List Char → List (List Char)
  | _, [] => []
  | 0, _ :: _ => []
  | n + 1, c :: s =>
    if pyIsSpace c then pySplitF n s
    else (c :: s.takeWhile (fun x => !pyIsSpace x)) :: pySplitF n (s.dropWhile (fun x => !pyIsSpace x))

/-- Model of Python's `s.strip().split()`: split on runs of whitespace,
discarding empty pieces and leading/trailing whitespace. -/
def pySplit (s : List Char) : List (List Char) := pySplitF s.length s

/-- Model of Python's `' '.join(sentence)`. -/
def joinSpace (ts : List (List Char)) : List Char := List.intercalate [' '] ts

/-- Model of Python's `s.replace(a, b)` for one-character `a` and `b`. -/
def replaceChar (a b : Char) (s : List Char) : List Char :=
  s.map (fun c => if c = a then b else c)

/-- The chain of 24 quote replacements of `Normalize._normalize`, applied in
source order; every glyph is replaced by the ASCII double quote. -/
def normalizeQuotes (s : List Char) : List Char :=
  s |> replaceChar '\xab' '"'
    |> replaceChar '‹' '"'
    |> replaceChar '\xbb' '"'
    |> replaceChar '›' '"'
    |> replaceChar '„' '"'
    |> replaceChar '“' '"'
    |> replaceChar '‟' '"'
    |> replaceChar '”' '"'
    |> replaceChar '\x22' '"'
    |> replaceChar '❝' '"'
    |> replaceChar '❞' '"'
    |> replaceChar '❮' '"'
    |> replaceChar '❯' '"'
    |> replaceChar '⹂' '"'
    |> replaceChar '〝' '"'
    |> replaceChar '〞' '"'
    |> replaceChar '〟' '"'
    |> replaceChar '＂' '"'
    |> replaceChar '‚' '"'
    |> replaceChar '‘' '"'
    |> replaceChar '‛' '"'
    |> replaceChar '❛' '"'
    |> replaceChar '❜' '"'
    |> replaceChar '❟' '"'

/-- Configuration of the `Normalize` transform: the three boolean toggles of
`Normalize.add_options` (the normalization form selects the `uninorm`
parameter of `Normalize._normalize` and is therefore not a field here). -/
structure NormCfg where
  no_normalize_quotes : Bool
  no_normalize_contractions : Bool
  no_unicode_normalization : Bool

namespace Normalize

/-- The quote-normalization statement of `Normalize._normalize`, guarded by
its toggle. -/
def quoteStep (cfg : NormCfg) (s : List Char) : List Char :=
  if cfg.no_normalize_quotes then s else normalizeQuotes s

/-- The contraction-normalization statement of `Normalize._normalize`
(`sentence.replace('’', "'")`), guarded by its toggle. -/
def contractionStep (cfg : NormCfg) (s : List Char) : List Char :=
  if cfg.no_normalize_contractions then s else replaceChar '’' '\x27' s

/-- The Unicode-normalization statement of `Normalize._normalize`
(`unicodedata.normalize(form, sentence)`, modelled by the `uninorm`
parameter), guarded by its toggle. -/
def unicodeStep (cfg : NormCfg) (uninorm : List Char → List Char) (s : List Char) : List Char :=
  if cfg.no_unicode_normalization then s else uninorm s

/-- Embedding of `Normalize._normalize`: join the tokens with single spaces,
optionally replace quote glyphs and the right single quotation mark, optionally
apply the Unicode normalization `uninorm` (modelling the external
`unicodedata.normalize(form, s)` call), then `strip().split()`. -/
def _normalize (cfg : NormCfg) (uninorm : List Char → List Char)
    (sentence : List (List Char)) : List (List Char) :=
  pySplit (unicodeStep cfg uninorm (contractionStep cfg (quoteStep cfg (joinSpace sentence))))

end Normalize

/-- Configuration of the `PreTokenize` transform: the two option strings of
`PreTokenize.add_options`, as character lists. -/
structure PretokCfg where
  intra_word_punctuation : List Char
  sticky_punctuation : List Char

namespace PreTokenize

/-- From `PreTokenize._parse_opts`:
`set(punctuation).difference(opts.intra_word_punctuation)`. -/
def inter_word_punctuation (cfg : PretokCfg) (c : Char) : Bool :=
  pythonPunctuation.contains c && !cfg.intra_word_punctuation.contains c

/-- From `PreTokenize._parse_opts`:
`set(punctuation).difference(opts.sticky_punctuation)`. -/
def non_sticky_punctuation (cfg : PretokCfg) (c : Char) : Bool :=
  pythonPunctuation.contains c && !cfg.sticky_punctuation.contains c

/-- From `PreTokenize._parse_opts`: `set(whitespace + punctuation)`. -/
def whitespace_or_punctuation (c : Char) : Bool :=
  (pythonWhitespace ++ pythonPunctuation).contains c

/-- The `next_char` of `zip_longest(sentence, sentence[1:], fillvalue='\0')`:
the head of the remaining characters, or the NUL sentinel at the end. -/
def nextOf : List Char → Char
  | [] => '\x00'
  | c :: _ => c

/-- Embedding of the generator `PreTokenize._pretok_gen`: a single
left-to-right scan that yields each character, preceded (followed) by a space
when the leading (trailing) boundary condition of the source holds. -/
def _pretok_gen (cfg : PretokCfg) : Char → List Char → List Char
  | _, [] => []
  | prev_char, char :: rest =>
    let next_char := nextOf rest
    let ciw := inter_word_punctuation cfg char
    let cns := non_sticky_punctuation cfg char
    let ceq := char == next_char
    (if prev_char != char &&
        (ciw || (cns && whitespace_or_punctuation next_char) ||
         (pythonPunctuation.contains char && ceq) || (next_char == '\x00'))
     then [' '] else []) ++
    char ::
    (if !ceq && (ciw || (cns && whitespace_or_punctuation prev_char))
     then [' '] else []) ++
    _pretok_gen cfg char rest

/-- Embedding of `PreTokenize._pre_tokenize`: join the tokens with single
spaces, run the scan (with the previous character initialized to a space),
then `strip().split()`. -/
def _pre_tokenize (cfg : PretokCfg) (sentence : List (List Char)) : List (List Char) :=
  pySplit (_pretok_gen cfg ' ' (joinSpace sentence))

end PreTokenize

/-- The default `PreTokenize` configuration:
`intra_word_punctuation = ".',-"` and `sticky_punctuation = "."`. -/
def defaultPretokCfg : PretokCfg := ⟨['.', '\x27', ',', '-'], ['.']⟩

/-- The default `Normalize` configuration: all three normalizations enabled. -/
def defaultNormCfg : NormCfg := ⟨false, false, false⟩

namespace CleanTED

/-- Model of one global pass of `re.sub(r"\([^)]+\)", '', s)`: at each `(`,
greedily take the maximal run of non-`)` characters; if the run is nonempty
and immediately followed by `)`, delete the whole match and continue after it,
otherwise keep the character and continue at the next position. -/
def removeBracketF : Nat → List Char → List Char
  | _, [] => []
  | 0, s => s
  | n + 1, c :: rest =>
    if c = '(' then
      match rest.dropWhile (fun x => x ≠ ')'), rest.takeWhile (fun x => x ≠ ')') with
      | ')' :: tail, _ :: _ => removeBracketF n tail
      | _, _ => c :: removeBracketF n rest
    else c :: removeBracketF n rest

/-- One global pass of the substitution, with enough fuel for the whole
string (every step of `removeBracketF` consumes at least one character). -/
def remove_bracket_sub (s : List Char) : List Char := removeBracketF s.length s

/-- Model of Python's `s.replace('♫ ', '')`: delete every (leftmost,
non-overlapping) occurrence of the two-character pattern. -/
def removeNoteSpace : List Char → List Char
  | [] => []
  | '♫' :: ' ' :: rest => removeNoteSpace rest
  | c :: rest => c :: removeNoteSpace rest

/-- Embedding of `CleanTED.clean`: join with spaces, delete parenthesized
spans when both brackets occur, delete musical-note markers, then
`strip().split()`. -/
def clean (sentence : List (List Char)) : List (List Char) :=
  let s0 := joinSpace sentence
  let s1 := if s0.contains '(' && s0.contains ')' then remove_bracket_sub s0 else s0
  let s2 := if s1.contains '♫' then (removeNoteSpace s1).filter (fun c => c != '♫') else s1
  pySplit s2

end CleanTED

/-- Modelled from the spec: the number of maximal punctuation/word runs of a
string, where (per the spec glossary) a punctuation run is a maximal sequence
of identical adjacent punctuation characters, a word run is a maximal sequence
of adjacent non-punctuation non-whitespace characters, and whitespace only
separates runs.  Used solely to state the boundary-count part of the spec's
claim; the state is the previous in-run character, if any. -/
def specRuns : Option Char → List Char → Nat
  | _, [] => 0
  | prev, c :: s =>
    if pyIsSpace c then specRuns none s
    else if pythonPunctuation.contains c then
      (if prev = some c then 0 else 1) + specRuns (some c) s
    else
      (match prev with
       | none => 1
       | some p => if pythonPunctuation.contains p then 1 else 0) + specRuns (some c) s

/-- Modelled from the spec: run count of a whole string. -/
def specRunCount (s : List Char) : Nat := specRuns none s
/-- Number of maximal whitespace-separated chunks of a string; the flag
records whether the scan is currently inside a chunk. -/
def chunkCount : Bool → List Char → Nat
  | _, [] => 0
  | inWord, c :: s =>
    if pyIsSpace c then chunkCount false s
    else (if inWord then 0 else 1) + chunkCount true s

/-- `SpacedOf s t` holds when `t` is `s` with some extra space characters
inserted (in order). -/
inductive SpacedOf : List Char → List Char → Prop
  | nil : SpacedOf [] []
  | cons (c : Char) {s t : List Char} : SpacedOf s t → SpacedOf (c :: s) (c :: t)
  | space {s t : List Char} : SpacedOf s t → SpacedOf s (' ' :: t)


/-- The 24 quote-glyph code points replaced by `normalizeQuotes`, in source
order. -/
def quoteGlyphSources : List Char :=
  ['\xab', '‹', '\xbb', '›', '„', '“', '‟', '”', '\x22', '❝', '❞', '❮',
   '❯', '⹂', '〝', '〞', '〟', '＂', '‚', '‘', '‛', '❛', '❜', '❟']

/-- The character-level substitution realized by the quote-replacement chain. -/
def quoteSubChar (c : Char) : Char :=
  if quoteGlyphSources.contains c then '"' else c

/-- The Sentence invariant of the spec: no token is empty and no token
contains internal whitespace. -/
def validSentence (ts : List (List Char)) : Prop :=
  ∀ t ∈ ts, t ≠ [] ∧ ∀ c ∈ t, pyIsSpace c = false

/-- A character that none of the pipeline's character classes match: not
Python punctuation, not a quote glyph, not the right single quotation mark,
and not the NUL sentinel. -/
def plainChar (c : Char) : Prop :=
  pythonPunctuation.contains c = false ∧ quoteGlyphSources.contains c = false ∧
    c ≠ '’' ∧ c ≠ '\x00'

theorem pySplitF_congr : ∀ (n m : Nat) (s : List Char), s.length ≤ n → s.length ≤ m →
    pySplitF n s = pySplitF m s := by
  intro n
  induction n with
  | zero =>
    intro m s hn _
    have : s = [] := List.eq_nil_of_length_eq_zero (Nat.le_zero.mp hn)
    subst this
    cases m <;> rfl
  | succ n ih =>
    intro m s hn hm
    cases s with
    | nil => cases m <;> rfl
    | cons c s' =>
      cases m with
      | zero => simp at hm
      | succ m' =>
        simp only [List.length_cons, Nat.succ_le_succ_iff] at hn hm
        simp only [pySplitF]
        by_cases h : pyIsSpace c
        · rw [if_pos h, if_pos h]
          exact ih m' s' hn hm
        · rw [if_neg h, if_neg h]
          have hd : (s'.dropWhile (fun x => !pyIsSpace x)).length ≤ s'.length :=
            (List.dropWhile_sublist _).length_le
          rw [ih m' _ (le_trans hd hn) (le_trans hd hm)]

theorem pySplit_nil : pySplit [] = [] := rfl

theorem pySplit_cons (c : Char) (s : List Char) :
    pySplit (c :: s) =
      if pyIsSpace c then pySplit s
      else (c :: s.takeWhile (fun x => !pyIsSpace x)) :: pySplit (s.dropWhile (fun x => !pyIsSpace x)) := by
  show pySplitF (s.length + 1) (c :: s) = _
  simp only [pySplitF]
  by_cases h : pyIsSpace c
  · rw [if_pos h, if_pos h]; rfl
  · rw [if_neg h, if_neg h, pySplit,
      pySplitF_congr s.length (s.dropWhile (fun x => !pyIsSpace x)).length _
        (List.dropWhile_sublist _).length_le (le_refl _)]

theorem pySplit_ws_cons {c : Char} (h : pyIsSpace c = true) (s : List Char) :
    pySplit (c :: s) = pySplit s := by
  rw [pySplit_cons, if_pos h]

theorem pySplit_sound : ∀ (s : List Char), ∀ t ∈ pySplit s,
    t ≠ [] ∧ ∀ c ∈ t, pyIsSpace c = false := by
  have H : ∀ (n : Nat) (s : List Char), s.length ≤ n → ∀ t ∈ pySplit s,
      t ≠ [] ∧ ∀ c ∈ t, pyIsSpace c = false := by
    intro n
    induction n with
    | zero =>
      intro s hn
      have : s = [] := List.eq_nil_of_length_eq_zero (Nat.le_zero.mp hn)
      subst this
      intro t ht
      simp [pySplit_nil] at ht
    | succ n ih =>
      intro s hn t ht
      cases s with
      | nil => simp [pySplit_nil] at ht
      | cons c s' =>
        simp only [List.length_cons, Nat.succ_le_succ_iff] at hn
        rw [pySplit_cons] at ht
        by_cases h : pyIsSpace c
        · rw [if_pos h] at ht
          exact ih s' hn t ht
        · rw [if_neg h] at ht
          rcases List.mem_cons.mp ht with rfl | ht
          · refine ⟨by simp, ?_⟩
            intro x hx
            rcases List.mem_cons.mp hx with rfl | hx
            · simpa using h
            · simpa using List.mem_takeWhile_imp hx
          · exact ih _ (le_trans (List.dropWhile_sublist _).length_le hn) t ht
  intro s
  exact H s.length s (le_refl _)

theorem pySplit_mem : ∀ (s : List Char), ∀ t ∈ pySplit s, ∀ c ∈ t, c ∈ s := by
  have H : ∀ (n : Nat) (s : List Char), s.length ≤ n → ∀ t ∈ pySplit s, ∀ c ∈ t, c ∈ s := by
    intro n
    induction n with
    | zero =>
      intro s hn
      have : s = [] := List.eq_nil_of_length_eq_zero (Nat.le_zero.mp hn)
      subst this
      intro t ht
      simp [pySplit_nil] at ht
    | succ n ih =>
      intro s hn t ht c hc
      cases s with
      | nil => simp [pySplit_nil] at ht
      | cons d s' =>
        simp only [List.length_cons, Nat.succ_le_succ_iff] at hn
        rw [pySplit_cons] at ht
        by_cases h : pyIsSpace d
        · rw [if_pos h] at ht
          exact List.mem_cons_of_mem d (ih s' hn t ht c hc)
        · rw [if_neg h] at ht
          rcases List.mem_cons.mp ht with rfl | ht
          · rcases List.mem_cons.mp hc with rfl | hc
            · exact List.mem_cons_self c s'
            · exact List.mem_cons_of_mem d ((List.takeWhile_sublist _).mem hc)
          · have := ih _ (le_trans (List.dropWhile_sublist _).length_le hn) t ht c hc
            exact List.mem_cons_of_mem d ((List.dropWhile_sublist _).mem this)
  intro s
  exact H s.length s (le_refl _)

theorem takeWhile_append_all {p : Char → Bool} : ∀ {l₁ l₂ : List Char},
    (∀ x ∈ l₁, p x = true) → (l₁ ++ l₂).takeWhile p = l₁ ++ l₂.takeWhile p := by
  intro l₁
  induction l₁ with
  | nil => intro l₂ _; simp
  | cons c l ih =>
    intro l₂ h
    have hc : p c = true := h c (List.mem_cons_self c l)
    simp only [List.cons_append, List.takeWhile_cons, hc, if_true]
    rw [ih (fun x hx => h x (List.mem_cons_of_mem c hx))]

theorem dropWhile_append_all {p : Char → Bool} : ∀ {l₁ l₂ : List Char},
    (∀ x ∈ l₁, p x = true) → (l₁ ++ l₂).dropWhile p = l₂.dropWhile p := by
  intro l₁
  induction l₁ with
  | nil => intro l₂ _; simp
  | cons c l ih =>
    intro l₂ h
    have hc : p c = true := h c (List.mem_cons_self c l)
    simp only [List.cons_append, List.dropWhile_cons, hc, if_true]
    exact ih (fun x hx => h x (List.mem_cons_of_mem c hx))

theorem pySplit_token_append {t : List Char} (s : List Char) (ht : t ≠ [])
    (hw : ∀ c ∈ t, pyIsSpace c = false) :
    pySplit (t ++ s) =
      (t ++ s.takeWhile (fun x => !pyIsSpace x)) :: pySplit (s.dropWhile (fun x => !pyIsSpace x)) := by
  cases t with
  | nil => exact absurd rfl ht
  | cons c t' =>
    have hc : pyIsSpace c = false := hw c (List.mem_cons_self c t')
    have ht' : ∀ x ∈ t', (fun x => !pyIsSpace x) x = true := by
      intro x hx
      simp [hw x (List.mem_cons_of_mem c hx)]
    rw [List.cons_append, pySplit_cons, if_neg (by simp [hc]),
      takeWhile_append_all ht', dropWhile_append_all ht']
    simp

theorem pySplit_token_space {t : List Char} (s : List Char) (ht : t ≠ [])
    (hw : ∀ c ∈ t, pyIsSpace c = false) :
    pySplit (t ++ ' ' :: s) = t :: pySplit s := by
  rw [pySplit_token_append _ ht hw]
  have hsp : pyIsSpace ' ' = true := by decide
  rw [List.takeWhile_cons, List.dropWhile_cons]
  simp only [hsp, Bool.not_true, Bool.false_eq_true, if_false]
  rw [pySplit_ws_cons hsp]
  simp

theorem pySplit_token_nil {t : List Char} (ht : t ≠ [])
    (hw : ∀ c ∈ t, pyIsSpace c = false) : pySplit t = [t] := by
  have := pySplit_token_append [] ht hw
  simpa using this

theorem joinSpace_nil : joinSpace [] = [] := by simp [joinSpace, List.intercalate]

theorem joinSpace_single (t : List Char) : joinSpace [t] = t := by
  simp [joinSpace, List.intercalate]

theorem joinSpace_cons₂ (t u : List Char) (ts : List (List Char)) :
    joinSpace (t :: u :: ts) = t ++ ' ' :: joinSpace (u :: ts) := by
  simp [joinSpace, List.intercalate, List.intersperse]

theorem pySplit_joinSpace : ∀ (ts : List (List Char)),
    (∀ t ∈ ts, t ≠ [] ∧ ∀ c ∈ t, pyIsSpace c = false) →
    pySplit (joinSpace ts) = ts := by
  intro ts
  induction ts with
  | nil => intro _; simp [joinSpace_nil, pySplit_nil]
  | cons t ts ih =>
    intro h
    have ht := h t (List.mem_cons_self t ts)
    cases ts with
    | nil => rw [joinSpace_single]; exact pySplit_token_nil ht.1 ht.2
    | cons u ts' =>
      rw [joinSpace_cons₂, pySplit_token_space _ ht.1 ht.2,
        ih (fun x hx => h x (List.mem_cons_of_mem t hx))]

theorem joinSpace_mem : ∀ (ts : List (List Char)) (c : Char), c ∈ joinSpace ts →
    (∃ t ∈ ts, c ∈ t) ∨ c = ' ' := by
  intro ts
  induction ts with
  | nil => intro c hc; simp [joinSpace_nil] at hc
  | cons t ts ih =>
    intro c hc
    cases ts with
    | nil =>
      rw [joinSpace_single] at hc
      exact Or.inl ⟨t, List.mem_cons_self t [], hc⟩
    | cons u ts' =>
      rw [joinSpace_cons₂] at hc
      rcases List.mem_append.mp hc with hc | hc
      · exact Or.inl ⟨t, List.mem_cons_self t _, hc⟩
      · rcases List.mem_cons.mp hc with rfl | hc
        · exact Or.inr rfl
        · rcases ih c hc with ⟨v, hv, hcv⟩ | h'
          · exact Or.inl ⟨v, List.mem_cons_of_mem t hv, hcv⟩
          · exact Or.inr h'

theorem chunkCount_true_le_false : ∀ (s : List Char), chunkCount true s ≤ chunkCount false s := by
  intro s
  cases s with
  | nil => exact le_refl _
  | cons c s' =>
    simp only [chunkCount]
    by_cases h : pyIsSpace c
    · rw [if_pos h, if_pos h]
    · rw [if_neg h, if_neg h]
      simp

theorem pySplit_length_chunk : ∀ (n : Nat) (s : List Char), s.length ≤ n →
    (pySplit s).length = chunkCount false s ∧
    (pySplit (s.dropWhile (fun x => !pyIsSpace x))).length = chunkCount true s := by
  intro n
  induction n with
  | zero =>
    intro s hn
    have : s = [] := List.eq_nil_of_length_eq_zero (Nat.le_zero.mp hn)
    subst this
    simp [pySplit_nil, chunkCount]
  | succ n ih =>
    intro s hn
    cases s with
    | nil => simp [pySplit_nil, chunkCount]
    | cons c s' =>
      simp only [List.length_cons, Nat.succ_le_succ_iff] at hn
      constructor
      · rw [pySplit_cons]
        by_cases h : pyIsSpace c
        · rw [if_pos h]
          simp only [chunkCount, if_pos h]
          exact (ih s' hn).1
        · rw [if_neg h]
          simp only [chunkCount, if_neg h, List.length_cons]
          rw [(ih s' hn).2]
          simp
          omega
      · rw [List.dropWhile_cons]
        by_cases h : pyIsSpace c
        · rw [if_neg (by simp [h])]
          rw [pySplit_ws_cons h]
          simp only [chunkCount, if_pos h]
          exact (ih s' hn).1
        · rw [if_pos (by simp [h])]
          simp only [chunkCount, if_neg h, if_pos rfl]
          rw [(ih s' hn).2]
          simp
          try omega

theorem chunkCount_le_of_spaced {s t : List Char} (h : SpacedOf s t) :
    ∀ b, chunkCount b s ≤ chunkCount b t := by
  induction h with
  | nil => intro b; exact le_refl _
  | cons c h ih =>
    intro b
    simp only [chunkCount]
    by_cases hc : pyIsSpace c
    · rw [if_pos hc, if_pos hc]
      exact ih false
    · rw [if_neg hc, if_neg hc]
      exact Nat.add_le_add (le_refl _) (ih true)
  | @space s' t' h ih =>
    intro b
    have hsp : pyIsSpace ' ' = true := by decide
    simp only [chunkCount, if_pos hsp]
    calc chunkCount b s' ≤ chunkCount false s' := by
          cases b
          · exact le_refl _
          · exact chunkCount_true_le_false s'
      _ ≤ chunkCount false t' := ih false

theorem pySplit_length_le_of_spaced {s t : List Char} (h : SpacedOf s t) :
    (pySplit s).length ≤ (pySplit t).length := by
  rw [(pySplit_length_chunk s.length s (le_refl _)).1,
    (pySplit_length_chunk t.length t (le_refl _)).1]
  exact chunkCount_le_of_spaced h false

theorem dropWhile_append_ne_nil {p : Char → Bool} : ∀ {l₁ : List Char} (l₂ : List Char),
    l₁.dropWhile p ≠ [] → (l₁ ++ l₂).dropWhile p = l₁.dropWhile p ++ l₂ := by
  intro l₁
  induction l₁ with
  | nil => intro l₂ h; exact absurd rfl h
  | cons c l ih =>
    intro l₂ h
    by_cases hc : p c
    · rw [List.dropWhile_cons, if_pos hc] at h
      simp only [List.cons_append, List.dropWhile_cons, if_pos hc]
      exact ih l₂ h
    · simp only [List.cons_append, List.dropWhile_cons, if_neg hc]

theorem dropWhile_ne_nil_of_mem {p : Char → Bool} {w : Char} {l : List Char}
    (hw : w ∈ l) (hpw : p w = false) : l.dropWhile p ≠ [] := by
  intro hnil
  have := List.dropWhile_eq_nil_iff.mp hnil w hw
  rw [hpw] at this
  exact Bool.false_ne_true this

theorem pySplit_adjacent {a b : Char} (ha : pyIsSpace a = false) (hb : pyIsSpace b = false) :
    ∀ (n : Nat) (s p q : List Char), s.length ≤ n → s = p ++ a :: b :: q →
    ∃ t, t ∈ pySplit s ∧ ∃ u v, t = u ++ a :: b :: v := by
  intro n
  induction n with
  | zero =>
    intro s p q hn hs
    subst hs
    simp at hn
  | succ n ih =>
    intro s p q hn hs
    cases p with
    | nil =>
      subst hs
      simp only [List.nil_append]
      refine ⟨a :: List.takeWhile (fun x => !pyIsSpace x) (b :: q), ?_, [],
        List.takeWhile (fun x => !pyIsSpace x) q, ?_⟩
      · rw [pySplit_cons, if_neg (by simp [ha])]
        exact List.mem_cons_self _ _
      · rw [List.takeWhile_cons, if_pos (by simp [hb])]
        simp
    | cons d p' =>
      subst hs
      simp only [List.cons_append, List.length_cons, Nat.succ_le_succ_iff] at hn ⊢
      by_cases hd : pyIsSpace d
      · rw [pySplit_ws_cons hd]
        exact ih _ p' q hn rfl
      · rw [pySplit_cons, if_neg hd]
        by_cases hp : ∀ x ∈ p', pyIsSpace x = false
        · refine ⟨d :: List.takeWhile (fun x => !pyIsSpace x) (p' ++ a :: b :: q),
            List.mem_cons_self _ _, ?_⟩
          rw [takeWhile_append_all (by intro x hx; simp [hp x hx]),
            List.takeWhile_cons, if_pos (by simp [ha]),
            List.takeWhile_cons, if_pos (by simp [hb])]
          exact ⟨d :: p', List.takeWhile (fun x => !pyIsSpace x) q, by simp⟩
        · push_neg at hp
          obtain ⟨w, hw, hwsp⟩ := hp
          have hwsp' : pyIsSpace w = true := Bool.ne_false_iff.mp hwsp
          have hne : p'.dropWhile (fun x => !pyIsSpace x) ≠ [] :=
            dropWhile_ne_nil_of_mem hw (by simp [hwsp'])
          rw [dropWhile_append_ne_nil _ hne]
          have hlen : (p'.dropWhile (fun x => !pyIsSpace x) ++ a :: b :: q).length ≤ n := by
            have := (@List.dropWhile_sublist Char p' (fun x => !pyIsSpace x)).length_le
            simp only [List.length_append, List.length_cons] at hn ⊢
            omega
          obtain ⟨t, htmem, hdec⟩ := ih _ _ q hlen rfl
          exact ⟨t, List.mem_cons_of_mem _ htmem, hdec⟩

theorem pretok_gen_cons (cfg : PretokCfg) (prev c : Char) (rest : List Char) :
    PreTokenize._pretok_gen cfg prev (c :: rest) =
      (if (prev != c &&
            (PreTokenize.inter_word_punctuation cfg c ||
             (PreTokenize.non_sticky_punctuation cfg c &&
              PreTokenize.whitespace_or_punctuation (PreTokenize.nextOf rest)) ||
             (pythonPunctuation.contains c && (c == PreTokenize.nextOf rest)) ||
             (PreTokenize.nextOf rest == '\x00'))) = true
       then [' '] else []) ++
      c ::
      (if ((!(c == PreTokenize.nextOf rest)) &&
            (PreTokenize.inter_word_punctuation cfg c ||
             (PreTokenize.non_sticky_punctuation cfg c &&
              PreTokenize.whitespace_or_punctuation prev))) = true
       then [' '] else []) ++
      PreTokenize._pretok_gen cfg c rest := rfl

theorem pretok_gen_length (cfg : PretokCfg) : ∀ (s : List Char) (prev : Char),
    s.length ≤ (PreTokenize._pretok_gen cfg prev s).length ∧
      (PreTokenize._pretok_gen cfg prev s).length ≤ 3 * s.length := by
  intro s
  induction s with
  | nil => intro prev; simp [PreTokenize._pretok_gen]
  | cons c rest ih =>
    intro prev
    obtain ⟨h1, h2⟩ := ih c
    rw [pretok_gen_cons]
    constructor
    · simp only [List.length_append, List.length_cons]
      split <;> simp <;> omega
    · simp only [List.length_append, List.length_cons]
      split <;> split <;> simp <;> omega

theorem spaced_pretok_gen (cfg : PretokCfg) : ∀ (s : List Char) (prev : Char),
    SpacedOf s (PreTokenize._pretok_gen cfg prev s) := by
  intro s
  induction s with
  | nil => intro prev; exact SpacedOf.nil
  | cons c rest ih =>
    intro prev
    rw [pretok_gen_cons]
    have inner : SpacedOf rest
        ((if ((!(c == PreTokenize.nextOf rest)) &&
            (PreTokenize.inter_word_punctuation cfg c ||
             (PreTokenize.non_sticky_punctuation cfg c &&
              PreTokenize.whitespace_or_punctuation prev))) = true
          then [' '] else []) ++ PreTokenize._pretok_gen cfg c rest) := by
      split
      · exact SpacedOf.space (ih c)
      · exact ih c
    have mid : SpacedOf (c :: rest)
        (c :: (if ((!(c == PreTokenize.nextOf rest)) &&
            (PreTokenize.inter_word_punctuation cfg c ||
             (PreTokenize.non_sticky_punctuation cfg c &&
              PreTokenize.whitespace_or_punctuation prev))) = true
          then [' '] else []) ++ PreTokenize._pretok_gen cfg c rest) :=
      SpacedOf.cons c inner
    split
    · exact SpacedOf.space mid
    · exact mid

theorem contains_false_iff {c : Char} {l : List Char} : l.contains c = false ↔ c ∉ l := by
  rw [← Bool.not_eq_true, not_iff_not]
  exact List.elem_iff

theorem plain_lead_false (cfg : PretokCfg) {c : Char}
    (hc : pythonPunctuation.contains c = false) {next : Char} (hnext : next ≠ '\x00')
    (prev : Char) :
    (prev != c &&
      (PreTokenize.inter_word_punctuation cfg c ||
       (PreTokenize.non_sticky_punctuation cfg c && PreTokenize.whitespace_or_punctuation next) ||
       (pythonPunctuation.contains c && (c == next)) || (next == '\x00'))) = false := by
  simp only [PreTokenize.inter_word_punctuation, PreTokenize.non_sticky_punctuation, hc,
    Bool.false_and, Bool.false_or, Bool.or_false, beq_eq_false_iff_ne, ne_eq,
    Bool.and_eq_false_imp, beq_iff_eq]
  intro _
  exact hnext

theorem plain_trail_false (cfg : PretokCfg) {c : Char}
    (hc : pythonPunctuation.contains c = false) (prev next : Char) :
    ((!(c == next)) &&
      (PreTokenize.inter_word_punctuation cfg c ||
       (PreTokenize.non_sticky_punctuation cfg c && PreTokenize.whitespace_or_punctuation prev))) = false := by
  simp only [PreTokenize.inter_word_punctuation, PreTokenize.non_sticky_punctuation, hc,
    Bool.false_and, Bool.false_or, Bool.or_false, Bool.and_false]

theorem pretok_gen_plain_cons (cfg : PretokCfg) {c : Char}
    (hc : pythonPunctuation.contains c = false) (prev : Char) {rest : List Char}
    (hrest : PreTokenize.nextOf rest ≠ '\x00') :
    PreTokenize._pretok_gen cfg prev (c :: rest) = c :: PreTokenize._pretok_gen cfg c rest := by
  rw [pretok_gen_cons, plain_lead_false cfg hc hrest prev, plain_trail_false cfg hc prev]
  simp

theorem pretok_gen_plain_last (cfg : PretokCfg) {a : Char}
    (ha : pythonPunctuation.contains a = false) (_ha0 : a ≠ '\x00') (prev : Char) :
    PreTokenize._pretok_gen cfg prev [a] = if prev = a then [a] else [' ', a] := by
  rw [pretok_gen_cons, plain_trail_false cfg ha prev]
  have hlead : (prev != a &&
      (PreTokenize.inter_word_punctuation cfg a ||
       (PreTokenize.non_sticky_punctuation cfg a &&
        PreTokenize.whitespace_or_punctuation (PreTokenize.nextOf [])) ||
       (pythonPunctuation.contains a && (a == PreTokenize.nextOf [])) ||
       (PreTokenize.nextOf [] == '\x00'))) = (prev != a) := by
    simp only [PreTokenize.inter_word_punctuation, PreTokenize.non_sticky_punctuation, ha,
      Bool.false_and, Bool.false_or, PreTokenize.nextOf, beq_self_eq_true, Bool.or_true,
      Bool.and_true]
  rw [hlead]
  by_cases h : prev = a
  · rw [if_pos h]
    simp [PreTokenize._pretok_gen, h]
  · rw [if_neg h]
    have : (prev != a) = true := by simp [bne_iff_ne, h]
    rw [this]
    simp [PreTokenize._pretok_gen]

theorem nextOf_mem : ∀ (l : List Char), l ≠ [] → PreTokenize.nextOf l ∈ l := by
  intro l hl
  cases l with
  | nil => exact absurd rfl hl
  | cons c l' => exact List.mem_cons_self c l'

theorem pretok_gen_plain_concat (cfg : PretokCfg) : ∀ (u : List Char) (prev a : Char),
    (∀ c ∈ u ++ [a], pythonPunctuation.contains c = false ∧ c ≠ '\x00') →
    PreTokenize._pretok_gen cfg prev (u ++ [a]) =
      u ++ (if u.getLastD prev = a then [a] else [' ', a]) := by
  intro u
  induction u with
  | nil =>
    intro prev a h
    have ha := h a (by simp)
    simpa using pretok_gen_plain_last cfg ha.1 ha.2 prev
  | cons d u' ih =>
    intro prev a h
    have hd := h d (by simp)
    have hnext : PreTokenize.nextOf (u' ++ [a]) ≠ '\x00' := by
      have hmem : PreTokenize.nextOf (u' ++ [a]) ∈ u' ++ [a] := nextOf_mem _ (by simp)
      have hmem' : PreTokenize.nextOf (u' ++ [a]) ∈ (d :: u') ++ [a] :=
        List.mem_cons_of_mem d hmem
      exact (h _ hmem').2
    rw [List.cons_append, pretok_gen_plain_cons cfg hd.1 prev hnext,
      ih d a (fun c hc => h c (List.mem_cons_of_mem d hc)), List.getLastD_cons]
    simp

theorem pretok_gen_append_space (cfg : PretokCfg) : ∀ (t : List Char) (prev : Char)
    (s : List Char), (∀ c ∈ t, pythonPunctuation.contains c = false ∧ c ≠ '\x00') →
    PreTokenize.nextOf s ≠ '\x00' →
    PreTokenize._pretok_gen cfg prev (t ++ ' ' :: s) =
      t ++ ' ' :: PreTokenize._pretok_gen cfg ' ' s := by
  intro t
  induction t with
  | nil =>
    intro prev s _ hs
    have hsp : pythonPunctuation.contains ' ' = false := by decide
    simpa using @pretok_gen_plain_cons cfg ' ' hsp prev s hs
  | cons d t' ih =>
    intro prev s h hs
    have hd := h d (by simp)
    have hnext : PreTokenize.nextOf (t' ++ ' ' :: s) ≠ '\x00' := by
      cases t' with
      | nil =>
        simp only [List.nil_append, PreTokenize.nextOf]
        decide
      | cons x t'' =>
        simp only [List.cons_append, PreTokenize.nextOf]
        exact (h x (by simp)).2
    rw [List.cons_append, pretok_gen_plain_cons cfg hd.1 prev hnext,
      ih d s (fun c hc => h c (List.mem_cons_of_mem d hc)) hs]
    simp

theorem pretok_gen_adjacent (cfg : PretokCfg) {a b c : Char}
    (ha : pythonPunctuation.contains a = false) (hb : pythonPunctuation.contains b = false)
    (hc : c ≠ '\x00') : ∀ (u : List Char) (prev : Char) (v : List Char),
    ∃ X Y, PreTokenize._pretok_gen cfg prev (u ++ a :: b :: c :: v) = X ++ a :: b :: Y := by
  intro u
  induction u with
  | nil =>
    intro prev v
    simp only [List.nil_append]
    rw [pretok_gen_cons, plain_trail_false cfg ha prev]
    have hbnext : PreTokenize.nextOf (c :: v) ≠ '\x00' := hc
    rw [@pretok_gen_plain_cons cfg b hb a (c :: v) hbnext]
    refine ⟨(if (prev != a &&
        (PreTokenize.inter_word_punctuation cfg a ||
         (PreTokenize.non_sticky_punctuation cfg a &&
          PreTokenize.whitespace_or_punctuation (PreTokenize.nextOf (b :: c :: v))) ||
         (pythonPunctuation.contains a && (a == PreTokenize.nextOf (b :: c :: v))) ||
         (PreTokenize.nextOf (b :: c :: v) == '\x00'))) = true then [' '] else []),
      PreTokenize._pretok_gen cfg b (c :: v), ?_⟩
    simp
  | cons d u' ih =>
    intro prev v
    obtain ⟨X', Y', hXY⟩ := ih d v
    rw [List.cons_append, pretok_gen_cons, hXY]
    refine ⟨(if (prev != d &&
        (PreTokenize.inter_word_punctuation cfg d ||
         (PreTokenize.non_sticky_punctuation cfg d &&
          PreTokenize.whitespace_or_punctuation
            (PreTokenize.nextOf (u' ++ a :: b :: c :: v))) ||
         (pythonPunctuation.contains d && (d == PreTokenize.nextOf (u' ++ a :: b :: c :: v))) ||
         (PreTokenize.nextOf (u' ++ a :: b :: c :: v) == '\x00'))) = true then [' '] else []) ++
      d :: (if ((!(d == PreTokenize.nextOf (u' ++ a :: b :: c :: v))) &&
        (PreTokenize.inter_word_punctuation cfg d ||
         (PreTokenize.non_sticky_punctuation cfg d &&
          PreTokenize.whitespace_or_punctuation prev))) = true then [' '] else []) ++ X',
      Y', ?_⟩
    simp


theorem replaceChar_append (a b : Char) (s t : List Char) :
    replaceChar a b (s ++ t) = replaceChar a b s ++ replaceChar a b t :=
  List.map_append _ s t

theorem quoteChain_char (c : Char) : normalizeQuotes [c] = [quoteSubChar c] := by
  by_cases h : c ∈ quoteGlyphSources
  · simp only [quoteGlyphSources, List.mem_cons, List.not_mem_nil, or_false] at h
    rcases h with rfl|rfl|rfl|rfl|rfl|rfl|rfl|rfl|rfl|rfl|rfl|rfl|rfl|rfl|rfl|rfl|rfl|rfl|rfl|rfl|rfl|rfl|rfl|rfl <;> decide
  · have h1 : ¬(c = '\xab') := fun e => h (by rw [e]; decide)
    have h2 : ¬(c = '‹') := fun e => h (by rw [e]; decide)
    have h3 : ¬(c = '\xbb') := fun e => h (by rw [e]; decide)
    have h4 : ¬(c = '›') := fun e => h (by rw [e]; decide)
    have h5 : ¬(c = '„') := fun e => h (by rw [e]; decide)
    have h6 : ¬(c = '“') := fun e => h (by rw [e]; decide)
    have h7 : ¬(c = '‟') := fun e => h (by rw [e]; decide)
    have h8 : ¬(c = '”') := fun e => h (by rw [e]; decide)
    have h9 : ¬(c = '\x22') := fun e => h (by rw [e]; decide)
    have h10 : ¬(c = '❝') := fun e => h (by rw [e]; decide)
    have h11 : ¬(c = '❞') := fun e => h (by rw [e]; decide)
    have h12 : ¬(c = '❮') := fun e => h (by rw [e]; decide)
    have h13 : ¬(c = '❯') := fun e => h (by rw [e]; decide)
    have h14 : ¬(c = '⹂') := fun e => h (by rw [e]; decide)
    have h15 : ¬(c = '〝') := fun e => h (by rw [e]; decide)
    have h16 : ¬(c = '〞') := fun e => h (by rw [e]; decide)
    have h17 : ¬(c = '〟') := fun e => h (by rw [e]; decide)
    have h18 : ¬(c = '＂') := fun e => h (by rw [e]; decide)
    have h19 : ¬(c = '‚') := fun e => h (by rw [e]; decide)
    have h20 : ¬(c = '‘') := fun e => h (by rw [e]; decide)
    have h21 : ¬(c = '‛') := fun e => h (by rw [e]; decide)
    have h22 : ¬(c = '❛') := fun e => h (by rw [e]; decide)
    have h23 : ¬(c = '❜') := fun e => h (by rw [e]; decide)
    have h24 : ¬(c = '❟') := fun e => h (by rw [e]; decide)
    have hq : quoteGlyphSources.contains c = false := contains_false_iff.mpr h
    simp [normalizeQuotes, replaceChar, quoteSubChar, hq, h1, h2, h3, h4, h5, h6, h7, h8, h9,
      h10, h11, h12, h13, h14, h15, h16, h17, h18, h19, h20, h21, h22, h23, h24]
    exact (if_neg h).symm

theorem normalizeQuotes_append (s t : List Char) :
    normalizeQuotes (s ++ t) = normalizeQuotes s ++ normalizeQuotes t := by
  unfold normalizeQuotes
  simp only [replaceChar_append]

theorem normalizeQuotes_cons (c : Char) (s : List Char) :
    normalizeQuotes (c :: s) = quoteSubChar c :: normalizeQuotes s := by
  have h := normalizeQuotes_append [c] s
  simp only [List.singleton_append] at h
  rw [h, quoteChain_char, List.singleton_append]

theorem normalizeQuotes_eq_map (s : List Char) : normalizeQuotes s = s.map quoteSubChar := by
  induction s with
  | nil => rfl
  | cons c s ih => rw [normalizeQuotes_cons, ih, List.map_cons]

theorem normalizeQuotes_id {s : List Char}
    (h : ∀ c ∈ s, quoteGlyphSources.contains c = false ∨ c = '"') :
    normalizeQuotes s = s := by
  rw [normalizeQuotes_eq_map]
  have hpt : ∀ c ∈ s, quoteSubChar c = c := by
    intro c hc
    rcases h c hc with hq | rfl
    · unfold quoteSubChar
      rw [if_neg (by rw [hq]; exact Bool.false_ne_true)]
    · decide
  calc s.map quoteSubChar = s.map id := List.map_congr_left hpt
    _ = s := List.map_id s

theorem mem_normalizeQuotes {c' : Char} {s : List Char} (h : c' ∈ normalizeQuotes s) :
    quoteGlyphSources.contains c' = false ∨ c' = '"' := by
  rw [normalizeQuotes_eq_map] at h
  obtain ⟨c, _, rfl⟩ := List.mem_map.mp h
  unfold quoteSubChar
  by_cases hq : quoteGlyphSources.contains c = true
  · rw [if_pos hq]
    exact Or.inr rfl
  · rw [if_neg hq]
    left
    cases hx : quoteGlyphSources.contains c
    · rfl
    · exact absurd hx hq

theorem replaceChar_id {a b : Char} {s : List Char} (h : ∀ c ∈ s, c ≠ a) :
    replaceChar a b s = s := by
  unfold replaceChar
  have hpt : ∀ c ∈ s, (if c = a then b else c) = c := fun c hc => if_neg (h c hc)
  calc s.map _ = s.map id := List.map_congr_left hpt
    _ = s := List.map_id s

theorem mem_replaceChar {a b c' : Char} {s : List Char} (h : c' ∈ replaceChar a b s) :
    c' = b ∨ (c' ∈ s ∧ c' ≠ a) := by
  unfold replaceChar at h
  obtain ⟨c, hc, rfl⟩ := List.mem_map.mp h
  by_cases he : c = a
  · rw [if_pos he]
    exact Or.inl rfl
  · rw [if_neg he]
    exact Or.inr ⟨hc, he⟩

theorem quoteStep_id (cfg : NormCfg) {s : List Char}
    (h : cfg.no_normalize_quotes = false →
      ∀ c ∈ s, quoteGlyphSources.contains c = false ∨ c = '"') :
    Normalize.quoteStep cfg s = s := by
  unfold Normalize.quoteStep
  cases hb : cfg.no_normalize_quotes
  · simp only [Bool.false_eq_true, if_false]
    exact normalizeQuotes_id (h hb)
  · simp

theorem contractionStep_id (cfg : NormCfg) {s : List Char}
    (h : cfg.no_normalize_contractions = false → ∀ c ∈ s, c ≠ '’') :
    Normalize.contractionStep cfg s = s := by
  unfold Normalize.contractionStep
  cases hb : cfg.no_normalize_contractions
  · simp only [Bool.false_eq_true, if_false]
    exact replaceChar_id (h hb)
  · simp

theorem normalize_twice (cfg : NormCfg) (uninorm : List Char → List Char)
    (hq : ∀ s : List Char, (∀ c ∈ s, quoteGlyphSources.contains c = false ∨ c = '"') →
      ∀ c ∈ uninorm s, quoteGlyphSources.contains c = false ∨ c = '"')
    (hc : ∀ s : List Char, (∀ c ∈ s, c ≠ '’') → ∀ c ∈ uninorm s, c ≠ '’')
    (hstab : ∀ s : List Char,
      uninorm (joinSpace (pySplit (uninorm s))) = joinSpace (pySplit (uninorm s)))
    (sentence : List (List Char)) :
    Normalize._normalize cfg uninorm (Normalize._normalize cfg uninorm sentence) =
      Normalize._normalize cfg uninorm sentence := by
  unfold Normalize._normalize
  set s1 := Normalize.quoteStep cfg (joinSpace sentence) with hs1
  set s2 := Normalize.contractionStep cfg s1 with hs2
  set s3 := Normalize.unicodeStep cfg uninorm s2 with hs3
  set t := pySplit s3 with ht
  have tvalid : ∀ x ∈ t, x ≠ [] ∧ ∀ c ∈ x, pyIsSpace c = false := pySplit_sound s3
  have tmem : ∀ x ∈ t, ∀ c ∈ x, c ∈ s3 := pySplit_mem s3
  have hkey : ∀ c ∈ joinSpace t, c ∈ s3 ∨ c = ' ' := by
    intro c hcj
    rcases joinSpace_mem t c hcj with ⟨x, hx, hcx⟩ | he
    · exact Or.inl (tmem x hx c hcx)
    · exact Or.inr he
  have hcq1 : cfg.no_normalize_quotes = false →
      ∀ c ∈ s1, quoteGlyphSources.contains c = false ∨ c = '"' := by
    intro hfq c hcm
    rw [hs1] at hcm
    unfold Normalize.quoteStep at hcm
    rw [if_neg (by simp [hfq])] at hcm
    exact mem_normalizeQuotes hcm
  have hcq2 : cfg.no_normalize_quotes = false →
      ∀ c ∈ s2, quoteGlyphSources.contains c = false ∨ c = '"' := by
    intro hfq c hcm
    rw [hs2] at hcm
    unfold Normalize.contractionStep at hcm
    by_cases hbc : cfg.no_normalize_contractions = true
    · rw [if_pos hbc] at hcm
      exact hcq1 hfq c hcm
    · rw [if_neg hbc] at hcm
      rcases mem_replaceChar hcm with rfl | ⟨hin, _⟩
      · exact Or.inl (by decide)
      · exact hcq1 hfq c hin
  have hcq3 : cfg.no_normalize_quotes = false →
      ∀ c ∈ s3, quoteGlyphSources.contains c = false ∨ c = '"' := by
    intro hfq c hcm
    rw [hs3] at hcm
    unfold Normalize.unicodeStep at hcm
    by_cases hbu : cfg.no_unicode_normalization = true
    · rw [if_pos hbu] at hcm
      exact hcq2 hfq c hcm
    · rw [if_neg hbu] at hcm
      exact hq s2 (hcq2 hfq) c hcm
  have hap2 : cfg.no_normalize_contractions = false → ∀ c ∈ s2, c ≠ '’' := by
    intro hfc c hcm
    rw [hs2] at hcm
    unfold Normalize.contractionStep at hcm
    rw [if_neg (by simp [hfc])] at hcm
    rcases mem_replaceChar hcm with rfl | ⟨_, hne⟩
    · decide
    · exact hne
  have hap3 : cfg.no_normalize_contractions = false → ∀ c ∈ s3, c ≠ '’' := by
    intro hfc c hcm
    rw [hs3] at hcm
    unfold Normalize.unicodeStep at hcm
    by_cases hbu : cfg.no_unicode_normalization = true
    · rw [if_pos hbu] at hcm
      exact hap2 hfc c hcm
    · rw [if_neg hbu] at hcm
      exact hc s2 (hap2 hfc) c hcm
  have hq2 : Normalize.quoteStep cfg (joinSpace t) = joinSpace t := by
    apply quoteStep_id
    intro hfq c hcj
    rcases hkey c hcj with hin | rfl
    · exact hcq3 hfq c hin
    · exact Or.inl (by decide)
  have hc2 : Normalize.contractionStep cfg (joinSpace t) = joinSpace t := by
    apply contractionStep_id
    intro hfc c hcj
    rcases hkey c hcj with hin | rfl
    · exact hap3 hfc c hin
    · decide
  have hu2 : Normalize.unicodeStep cfg uninorm (joinSpace t) = joinSpace t := by
    unfold Normalize.unicodeStep
    cases hbu : cfg.no_unicode_normalization
    · rw [if_neg (by simp [hbu])]
      have hseq : s3 = uninorm s2 := by
        rw [hs3]
        unfold Normalize.unicodeStep
        rw [if_neg (by simp [hbu])]
      rw [ht, hseq]
      exact hstab s2
    · simp
  rw [hq2, hc2, hu2]
  exact pySplit_joinSpace t tvalid

theorem joinSpace_cons_ne (t : List Char) {ts : List (List Char)} (h : ts ≠ []) :
    joinSpace (t :: ts) = t ++ ' ' :: joinSpace ts := by
  cases ts with
  | nil => exact absurd rfl h
  | cons u ts' => exact joinSpace_cons₂ t u ts'

theorem joinSpace_nextOf {ts : List (List Char)} (hne : ts ≠ [])
    (h : ∀ x ∈ ts, x ≠ [] ∧ ∀ c ∈ x, c ≠ '\x00') :
    PreTokenize.nextOf (joinSpace ts) ≠ '\x00' := by
  cases ts with
  | nil => exact absurd rfl hne
  | cons t ts' =>
    obtain ⟨htne, htc⟩ := h t (List.mem_cons_self t ts')
    cases t with
    | nil => exact absurd rfl htne
    | cons c rest =>
      have hc : c ≠ '\x00' := htc c (List.mem_cons_self c rest)
      cases ts' with
      | nil =>
        rw [joinSpace_single]
        exact hc
      | cons u ts'' =>
        rw [joinSpace_cons₂, List.cons_append]
        exact hc

theorem pretok_last (cfg : PretokCfg) : ∀ (ts' : List (List Char)) (t : List Char),
    (∀ x ∈ ts' ++ [t], x ≠ [] ∧ ∀ c ∈ x,
      pyIsSpace c = false ∧ pythonPunctuation.contains c = false ∧ c ≠ '\x00') →
    PreTokenize._pre_tokenize cfg (ts' ++ [t]) =
      ts' ++ pySplit (PreTokenize._pretok_gen cfg ' ' t) := by
  intro ts'
  induction ts' with
  | nil =>
    intro t _
    unfold PreTokenize._pre_tokenize
    rw [List.nil_append, joinSpace_single, List.nil_append]
  | cons v ts'' ih =>
    intro t h
    obtain ⟨hvne, hvc⟩ := h v (List.mem_cons_self v _)
    unfold PreTokenize._pre_tokenize
    rw [List.cons_append, joinSpace_cons_ne v (by simp)]
    have hnext : PreTokenize.nextOf (joinSpace (ts'' ++ [t])) ≠ '\x00' :=
      joinSpace_nextOf (by simp)
        (fun x hx => ⟨(h x (List.mem_cons_of_mem v hx)).1,
          fun c hc => ((h x (List.mem_cons_of_mem v hx)).2 c hc).2.2⟩)
    have hplain : ∀ c ∈ v, pythonPunctuation.contains c = false ∧ c ≠ '\x00' :=
      fun c hc => ⟨(hvc c hc).2.1, (hvc c hc).2.2⟩
    rw [pretok_gen_append_space cfg v ' ' (joinSpace (ts'' ++ [t])) hplain hnext]
    rw [pySplit_token_space _ hvne (fun c hc => (hvc c hc).1)]
    have ih' := ih t (fun x hx => h x (List.mem_cons_of_mem v hx))
    unfold PreTokenize._pre_tokenize at ih'
    rw [ih']
    simp

theorem last_tok (cfg : PretokCfg) (u : List Char) (a : Char)
    (h : ∀ c ∈ u ++ [a],
      pyIsSpace c = false ∧ pythonPunctuation.contains c = false ∧ c ≠ '\x00') :
    pySplit (PreTokenize._pretok_gen cfg ' ' (u ++ [a])) =
      if u.getLastD ' ' = a then [u ++ [a]]
      else if u = [] then [[a]] else [u, [a]] := by
  rw [pretok_gen_plain_concat cfg u ' ' a (fun c hc => ⟨(h c hc).2.1, (h c hc).2.2⟩)]
  by_cases h1 : u.getLastD ' ' = a
  · rw [if_pos h1, if_pos h1]
    exact pySplit_token_nil (by simp) (by
      intro c hc
      rcases List.mem_append.mp hc with hc | hc
      · exact (h c (List.mem_append.mpr (Or.inl hc))).1
      · rcases List.mem_singleton.mp hc with rfl
        exact (h c (List.mem_append.mpr (Or.inr (List.mem_singleton.mpr rfl)))).1)
  · rw [if_neg h1, if_neg h1]
    by_cases h2 : u = []
    · subst h2
      rw [if_pos rfl]
      simp only [List.nil_append]
      have hsp : pyIsSpace ' ' = true := by decide
      rw [pySplit_ws_cons hsp]
      exact pySplit_token_nil (by simp) (by
        intro c hc
        rcases List.mem_singleton.mp hc with rfl
        exact (h c (by simp)).1)
    · rw [if_neg h2]
      have hshape : u ++ [' ', a] = u ++ ' ' :: [a] := rfl
      rw [hshape, pySplit_token_space _ h2
        (fun c hc => (h c (List.mem_append.mpr (Or.inl hc))).1)]
      rw [pySplit_token_nil (by simp) (by
        intro c hc
        rcases List.mem_singleton.mp hc with rfl
        exact (h c (by simp)).1)]

theorem getLastD_ne_of_wsfree {u : List Char} {a : Char} (ha : pyIsSpace a = false)
    (hu : u = []) : u.getLastD ' ' ≠ a := by
  subst hu
  intro he
  have : pyIsSpace a = true := by rw [← he]; decide
  rw [this] at ha
  exact Bool.true_eq_false ▸ ha

theorem pretok_plain_step (cfg : PretokCfg) (ts : List (List Char))
    (h : ∀ x ∈ ts, x ≠ [] ∧ ∀ c ∈ x,
      pyIsSpace c = false ∧ pythonPunctuation.contains c = false ∧ c ≠ '\x00') :
    (∀ x ∈ PreTokenize._pre_tokenize cfg ts, x ≠ [] ∧ ∀ c ∈ x,
      pyIsSpace c = false ∧ pythonPunctuation.contains c = false ∧ c ≠ '\x00') ∧
    PreTokenize._pre_tokenize cfg (PreTokenize._pre_tokenize cfg ts) =
      PreTokenize._pre_tokenize cfg ts := by
  rcases List.eq_nil_or_concat ts with rfl | ⟨ts', t, hts⟩
  · have hnil : PreTokenize._pre_tokenize cfg [] = [] := rfl
    rw [hnil]
    exact ⟨by simp, by rw [hnil]⟩
  · rw [List.concat_eq_append] at hts
    subst hts
    have ht := h t (by simp)
    obtain ⟨u, a, hua⟩ : ∃ u a, t = u ++ [a] := by
      rcases List.eq_nil_or_concat t with rfl | ⟨u, a, hu⟩
      · exact absurd rfl ht.1
      · exact ⟨u, a, by rw [hu, List.concat_eq_append]⟩
    subst hua
    have hchars := ht.2
    have hres := pretok_last cfg ts' (u ++ [a]) h
    rw [last_tok cfg u a hchars] at hres
    by_cases h1 : u.getLastD ' ' = a
    · rw [if_pos h1] at hres
      rw [hres]
      refine ⟨h, ?_⟩
      have hres2 := pretok_last cfg ts' (u ++ [a]) h
      rw [last_tok cfg u a hchars, if_pos h1] at hres2
      rw [hres2]
    · rw [if_neg h1] at hres
      by_cases h2 : u = []
      · rw [if_pos h2] at hres
        subst h2
        simp only [List.nil_append] at hres ⊢
        rw [hres]
        have hok : ∀ x ∈ ts' ++ [[a]], x ≠ [] ∧ ∀ c ∈ x,
            pyIsSpace c = false ∧ pythonPunctuation.contains c = false ∧ c ≠ '\x00' := by
          intro x hx
          rcases List.mem_append.mp hx with hx | hx
          · exact h x (List.mem_append.mpr (Or.inl hx))
          · rcases List.mem_singleton.mp hx with rfl
            refine ⟨by simp, ?_⟩
            intro c hc
            rcases List.mem_singleton.mp hc with rfl
            exact hchars c (by simp)
        refine ⟨hok, ?_⟩
        have hres2 := pretok_last cfg ts' [a] hok
        rw [show ([a] : List Char) = [] ++ [a] from rfl,
          last_tok cfg [] a (by simpa using hchars a (by simp)),
          if_neg (getLastD_ne_of_wsfree (hchars a (by simp)).1 rfl), if_pos rfl] at hres2
        simpa using hres2
      · rw [if_neg h2] at hres
        rw [hres]
        have hok : ∀ x ∈ ts' ++ [u, [a]], x ≠ [] ∧ ∀ c ∈ x,
            pyIsSpace c = false ∧ pythonPunctuation.contains c = false ∧ c ≠ '\x00' := by
          intro x hx
          rcases List.mem_append.mp hx with hx | hx
          · exact h x (List.mem_append.mpr (Or.inl hx))
          · rcases List.mem_cons.mp hx with rfl | hx
            · refine ⟨h2, ?_⟩
              intro c hc
              exact hchars c (List.mem_append.mpr (Or.inl hc))
            · rcases List.mem_singleton.mp hx with rfl
              refine ⟨by simp, ?_⟩
              intro c hc
              rcases List.mem_singleton.mp hc with rfl
              exact hchars c (by simp)
        refine ⟨hok, ?_⟩
        have hshape : ts' ++ [u, [a]] = (ts' ++ [u]) ++ [[a]] := by simp
        have hok2 : ∀ x ∈ (ts' ++ [u]) ++ [[a]], x ≠ [] ∧ ∀ c ∈ x,
            pyIsSpace c = false ∧ pythonPunctuation.contains c = false ∧ c ≠ '\x00' := by
          rw [← hshape]
          exact hok
        have hres2 := pretok_last cfg (ts' ++ [u]) [a] hok2
        rw [show ([a] : List Char) = [] ++ [a] from rfl,
          last_tok cfg [] a (by simpa using hchars a (by simp)),
          if_neg (getLastD_ne_of_wsfree (hchars a (by simp)).1 rfl), if_pos rfl] at hres2
        simp only [List.nil_append] at hres2
        rw [hshape, hres2]

theorem mem_of_spaced {s t : List Char} (h : SpacedOf s t) : ∀ c ∈ t, c ∈ s ∨ c = ' ' := by
  induction h with
  | nil => intro c hc; simp at hc
  | cons d h ih =>
    intro c hc
    rcases List.mem_cons.mp hc with rfl | hc
    · exact Or.inl (List.mem_cons_self c _)
    · rcases ih c hc with hin | he
      · exact Or.inl (List.mem_cons_of_mem d hin)
      · exact Or.inr he
  | space h ih =>
    intro c hc
    rcases List.mem_cons.mp hc with rfl | hc
    · exact Or.inr rfl
    · exact ih c hc

theorem normalize_plain (ncfg : NormCfg) (uninorm : List Char → List Char)
    (hf : ∀ s : List Char, (∀ c ∈ s, plainChar c) → uninorm s = s)
    (ts : List (List Char)) (hts : ∀ t ∈ ts, ∀ c ∈ t, plainChar c) :
    Normalize._normalize ncfg uninorm ts = pySplit (joinSpace ts) := by
  unfold Normalize._normalize
  have hplain : ∀ c ∈ joinSpace ts, plainChar c := by
    intro c hc
    rcases joinSpace_mem ts c hc with ⟨t, htm, hct⟩ | rfl
    · exact hts t htm c hct
    · exact ⟨by decide, by decide, by decide, by decide⟩
  rw [quoteStep_id ncfg (fun _ c hc => Or.inl (hplain c hc).2.1)]
  rw [contractionStep_id ncfg (fun _ c hc => (hplain c hc).2.2.1)]
  unfold Normalize.unicodeStep
  cases hbu : ncfg.no_unicode_normalization
  · simp only [Bool.false_eq_true, if_false]
    rw [hf _ hplain]
  · simp

/-- C1: under the default configuration the BoundaryTokenizer does NOT return
`["don't", "stop"]` unchanged and does NOT return
`["(", "parenthetical", ")", "word"]`: the end-of-string sentinel clause of
`PreTokenize._pretok_gen` splits the final letter of the sentence into its own
token, so the code returns `["don't", "sto", "p"]` and
`["(", "parenthetical", ")", "wor", "d"]`.  This theorem evaluates the code at
both failing inputs. -/
theorem spec_c1_eval :
    PreTokenize._pre_tokenize defaultPretokCfg
        [['d','o','n','\x27','t'], ['s','t','o','p']] =
      [['d','o','n','\x27','t'], ['s','t','o'], ['p']] ∧
    PreTokenize._pre_tokenize defaultPretokCfg
        [['(','p','a','r','e','n','t','h','e','t','i','c','a','l',')'], ['w','o','r','d']] =
      [['('], ['p','a','r','e','n','t','h','e','t','i','c','a','l'], [')'], ['w','o','r'], ['d']] := by
  decide

/-- C2 counterexample: the claim fails on the code at two concrete inputs.
For `["ab"]` the two adjacent non-punctuation characters `a`, `b` are split
into the two different tokens `["a"]` and `["b"]`; for `["a'b'c"]` the output
has 2 tokens while the input has 5 maximal punctuation/word runs, so the
token count is NOT at least the run count. -/
theorem spec_c2_counterexample :
    PreTokenize._pre_tokenize defaultPretokCfg [['a','b']] = [['a'], ['b']] ∧
    (PreTokenize._pre_tokenize defaultPretokCfg [['a','\x27','b','\x27','c']]).length = 2 ∧
    specRunCount (joinSpace [['a','\x27','b','\x27','c']]) = 5 ∧
    (PreTokenize._pre_tokenize defaultPretokCfg [['a','\x27','b','\x27','c']]).length <
      specRunCount (joinSpace [['a','\x27','b','\x27','c']]) := by
  decide

/-- C2 amended: for every configuration and input sentence, the number of
output tokens of the BoundaryTokenizer is at least the number of maximal
whitespace-separated chunks of the joined input, and two adjacent
non-punctuation non-whitespace characters of the input are never split into
different tokens unless the second one is the final character of the joined
string (the end-of-string sentinel case): whenever at least one more
non-NUL character follows them, some output token contains the two
characters adjacently. -/
theorem spec_c2_amended (cfg : PretokCfg) (sentence : List (List Char)) :
    (pySplit (joinSpace sentence)).length ≤
      (PreTokenize._pre_tokenize cfg sentence).length ∧
    ∀ (u : List Char) (a b c : Char) (v : List Char),
      joinSpace sentence = u ++ a :: b :: c :: v →
      pythonPunctuation.contains a = false → pythonPunctuation.contains b = false →
      pyIsSpace a = false → pyIsSpace b = false → c ≠ '\x00' →
      ∃ t, t ∈ PreTokenize._pre_tokenize cfg sentence ∧ ∃ p q, t = p ++ a :: b :: q := by
  constructor
  · exact pySplit_length_le_of_spaced (spaced_pretok_gen cfg (joinSpace sentence) ' ')
  · intro u a b c v hj ha hb hwa hwb hc
    unfold PreTokenize._pre_tokenize
    rw [hj]
    obtain ⟨X, Y, hXY⟩ := pretok_gen_adjacent cfg ha hb hc u ' ' v
    rw [hXY]
    exact pySplit_adjacent hwa hwb (X ++ a :: b :: Y).length _ X Y (le_refl _) rfl

/-- C2 amended, witness: a concrete instance of both conjuncts at the
sentence `["abc"]`. -/
theorem spec_c2_amended_witness :
    (pySplit (joinSpace [['a','b','c']])).length ≤
      (PreTokenize._pre_tokenize defaultPretokCfg [['a','b','c']]).length ∧
    ∃ t, t ∈ PreTokenize._pre_tokenize defaultPretokCfg [['a','b','c']] ∧
      ∃ p q, t = p ++ 'a' :: 'b' :: q :=
  ⟨(spec_c2_amended defaultPretokCfg [['a','b','c']]).1,
   (spec_c2_amended defaultPretokCfg [['a','b','c']]).2 [] 'a' 'b' 'c' []
     (by decide) (by decide) (by decide) (by decide) (by decide) (by decide)⟩

/-- C3: `["e.g.", "example"]` keeps the period attached to the token starting
with `e.g` under the default (sticky) configuration — the first output token
is `e.g.` — and yields the final period as its own separate token when the
period is removed from the sticky set.  The two full outputs are computed
exactly (the trailing `exampl`/`e` split is the end-of-string sentinel
behaviour, independent of the period handling the claim is about). -/
theorem spec_c3 :
    PreTokenize._pre_tokenize defaultPretokCfg
        [['e','.','g','.'], ['e','x','a','m','p','l','e']] =
      [['e','.','g','.'], ['e','x','a','m','p','l'], ['e']] ∧
    PreTokenize._pre_tokenize ⟨['.', '\x27', ',', '-'], []⟩
        [['e','.','g','.'], ['e','x','a','m','p','l','e']] =
      [['e','.','g'], ['.'], ['e','x','a','m','p','l'], ['e']] := by
  decide

/-- C4: under the default configuration `["wait..."]` yields exactly
`["wait", "..."]`, the run of three periods being emitted as one glued
token. -/
theorem spec_c4 :
    PreTokenize._pre_tokenize defaultPretokCfg [['w','a','i','t','.','.','.']] =
      [['w','a','i','t'], ['.','.','.']] := by
  decide

/-- C5 counterexample: the two-stage pipeline is not a fixed point on its own
output.  With the default punctuation configuration and Unicode normalization
disabled, the input `["a,b"]` maps to `["a,", "b"]`, and a second run of the
pipeline maps that to `["a", ",", "b"]`. -/
theorem spec_c5_counterexample :
    PreTokenize._pre_tokenize defaultPretokCfg
        (Normalize._normalize ⟨false, false, true⟩ (fun s => s)
          (PreTokenize._pre_tokenize defaultPretokCfg
            (Normalize._normalize ⟨false, false, true⟩ (fun s => s) [['a',',','b']]))) ≠
      PreTokenize._pre_tokenize defaultPretokCfg
        (Normalize._normalize ⟨false, false, true⟩ (fun s => s) [['a',',','b']]) := by
  decide

/-- C5 amended: for every configuration of both stages, the two-stage pipeline
is a fixed point on its own output for sentences of plain characters
(characters that are not Python punctuation, not quote glyphs, not the right
single quotation mark and not NUL), provided the modelled Unicode
normalization fixes plain strings. -/
theorem spec_c5_amended (ncfg : NormCfg) (pcfg : PretokCfg)
    (uninorm : List Char → List Char)
    (hf : ∀ s : List Char, (∀ c ∈ s, plainChar c) → uninorm s = s)
    (sentence : List (List Char)) (hs : ∀ t ∈ sentence, ∀ c ∈ t, plainChar c) :
    PreTokenize._pre_tokenize pcfg (Normalize._normalize ncfg uninorm
        (PreTokenize._pre_tokenize pcfg (Normalize._normalize ncfg uninorm sentence))) =
      PreTokenize._pre_tokenize pcfg (Normalize._normalize ncfg uninorm sentence) := by
  rw [normalize_plain ncfg uninorm hf sentence hs]
  have h0valid := pySplit_sound (joinSpace sentence)
  have h0mem := pySplit_mem (joinSpace sentence)
  have h0plain : ∀ x ∈ pySplit (joinSpace sentence), ∀ c ∈ x, plainChar c := by
    intro x hx c hc
    rcases joinSpace_mem sentence c (h0mem x hx c hc) with ⟨t, htm, hct⟩ | rfl
    · exact hs t htm c hct
    · exact ⟨by decide, by decide, by decide, by decide⟩
  have h0 : ∀ x ∈ pySplit (joinSpace sentence), x ≠ [] ∧ ∀ c ∈ x,
      pyIsSpace c = false ∧ pythonPunctuation.contains c = false ∧ c ≠ '\x00' := by
    intro x hx
    refine ⟨(h0valid x hx).1, fun c hc => ?_⟩
    exact ⟨(h0valid x hx).2 c hc, (h0plain x hx c hc).1, (h0plain x hx c hc).2.2.2⟩
  obtain ⟨h1ok, h1fix⟩ := pretok_plain_step pcfg (pySplit (joinSpace sentence)) h0
  have h1plain : ∀ x ∈ PreTokenize._pre_tokenize pcfg (pySplit (joinSpace sentence)),
      ∀ c ∈ x, plainChar c := by
    intro x hx c hc
    have hcg : c ∈ PreTokenize._pretok_gen pcfg ' ' (joinSpace (pySplit (joinSpace sentence))) := by
      have := pySplit_mem _ x hx c hc
      exact this
    rcases mem_of_spaced (spaced_pretok_gen pcfg _ ' ') c hcg with hin | rfl
    · rcases joinSpace_mem _ c hin with ⟨t, htm, hct⟩ | rfl
      · exact h0plain t htm c hct
      · exact ⟨by decide, by decide, by decide, by decide⟩
    · exact ⟨by decide, by decide, by decide, by decide⟩
  rw [normalize_plain ncfg uninorm hf _ h1plain]
  rw [pySplit_joinSpace _ (fun x hx => ⟨(h1ok x hx).1, fun c hc => ((h1ok x hx).2 c hc).1⟩)]
  exact h1fix

/-- C5 amended, witness: the pipeline with default configurations and the
identity Unicode normalization is a fixed point on the plain sentence
`["stop"]`. -/
theorem spec_c5_amended_witness :
    PreTokenize._pre_tokenize defaultPretokCfg (Normalize._normalize defaultNormCfg (fun s => s)
        (PreTokenize._pre_tokenize defaultPretokCfg
          (Normalize._normalize defaultNormCfg (fun s => s) [['s','t','o','p']]))) =
      PreTokenize._pre_tokenize defaultPretokCfg
        (Normalize._normalize defaultNormCfg (fun s => s) [['s','t','o','p']]) :=
  spec_c5_amended defaultNormCfg defaultPretokCfg (fun s => s) (fun _ _ => rfl)
    [['s','t','o','p']]
    (by
      intro t ht c hc
      fin_cases ht
      fin_cases hc <;> exact ⟨by decide, by decide, by decide, by decide⟩)

/-- C6: the Normalizer is idempotent for every configuration of its toggles,
with the Unicode normalization modelled by `uninorm` under its
Unicode-standard guarantees: it does not introduce quote glyphs or the right
single quotation mark into strings free of them, and it is stable on the
whitespace-canonicalized image of a normalized string. -/
theorem spec_c6 (cfg : NormCfg) (uninorm : List Char → List Char)
    (hq : ∀ s : List Char, (∀ c ∈ s, quoteGlyphSources.contains c = false ∨ c = '"') →
      ∀ c ∈ uninorm s, quoteGlyphSources.contains c = false ∨ c = '"')
    (hc : ∀ s : List Char, (∀ c ∈ s, c ≠ '’') → ∀ c ∈ uninorm s, c ≠ '’')
    (hstab : ∀ s : List Char,
      uninorm (joinSpace (pySplit (uninorm s))) = joinSpace (pySplit (uninorm s)))
    (sentence : List (List Char)) :
    Normalize._normalize cfg uninorm (Normalize._normalize cfg uninorm sentence) =
      Normalize._normalize cfg uninorm sentence :=
  normalize_twice cfg uninorm hq hc hstab sentence

/-- C6 witness: the default configuration with the identity Unicode
normalization is idempotent at the concrete sentence `["«text»"]`. -/
theorem spec_c6_witness :
    Normalize._normalize defaultNormCfg (fun s => s)
        (Normalize._normalize defaultNormCfg (fun s => s) [['«','t','e','x','t','»']]) =
      Normalize._normalize defaultNormCfg (fun s => s) [['«','t','e','x','t','»']] :=
  spec_c6 defaultNormCfg (fun s => s) (fun _ h => h) (fun _ h => h) (fun _ => rfl)
    [['«','t','e','x','t','»']]

/-- C7: under the default configuration (with `uninorm` fixing the already
canonical ASCII result, as NFKC does), the Normalizer maps `«text»`, `„text“`
and `“text”` to the single token `"text"` with ASCII double quotes; and in
general the quote-replacement chain substitutes the ASCII double quote for
every occurrence of every code point of the quote-glyph table. -/
theorem spec_c7 (uninorm : List Char → List Char)
    (hf : uninorm ['"','t','e','x','t','"'] = ['"','t','e','x','t','"']) :
    (Normalize._normalize defaultNormCfg uninorm [['«','t','e','x','t','»']] =
        [['"','t','e','x','t','"']] ∧
     Normalize._normalize defaultNormCfg uninorm [['„','t','e','x','t','“']] =
        [['"','t','e','x','t','"']] ∧
     Normalize._normalize defaultNormCfg uninorm [['“','t','e','x','t','”']] =
        [['"','t','e','x','t','"']]) ∧
    ∀ s : List Char, normalizeQuotes s = s.map quoteSubChar := by
  refine ⟨⟨?_, ?_, ?_⟩, fun s => normalizeQuotes_eq_map s⟩
  · unfold Normalize._normalize
    rw [show Normalize.contractionStep defaultNormCfg (Normalize.quoteStep defaultNormCfg
        (joinSpace [['«','t','e','x','t','»']])) = ['"','t','e','x','t','"'] from by decide]
    unfold Normalize.unicodeStep
    rw [if_neg (by decide), hf]
    decide
  · unfold Normalize._normalize
    rw [show Normalize.contractionStep defaultNormCfg (Normalize.quoteStep defaultNormCfg
        (joinSpace [['„','t','e','x','t','“']])) = ['"','t','e','x','t','"'] from by decide]
    unfold Normalize.unicodeStep
    rw [if_neg (by decide), hf]
    decide
  · unfold Normalize._normalize
    rw [show Normalize.contractionStep defaultNormCfg (Normalize.quoteStep defaultNormCfg
        (joinSpace [['“','t','e','x','t','”']])) = ['"','t','e','x','t','"'] from by decide]
    unfold Normalize.unicodeStep
    rw [if_neg (by decide), hf]
    decide

/-- C7 witness: the first quote canonicalization instance with the identity
Unicode normalization. -/
theorem spec_c7_witness :
    Normalize._normalize defaultNormCfg (fun s => s) [['«','t','e','x','t','»']] =
      [['"','t','e','x','t','"']] :=
  (spec_c7 (fun s => s) rfl).1.1

/-- C8: every core operation returns a sentence satisfying the Sentence
invariant — no empty token and no token containing internal whitespace — for
every configuration, every Unicode normalization and every input sentence. -/
theorem spec_c8 (ncfg : NormCfg) (uninorm : List Char → List Char) (pcfg : PretokCfg)
    (sentence : List (List Char)) :
    validSentence (Normalize._normalize ncfg uninorm sentence) ∧
    validSentence (PreTokenize._pre_tokenize pcfg sentence) ∧
    validSentence (CleanTED.clean sentence) := by
  refine ⟨?_, ?_, ?_⟩
  · unfold Normalize._normalize validSentence
    exact pySplit_sound _
  · unfold PreTokenize._pre_tokenize validSentence
    exact pySplit_sound _
  · unfold CleanTED.clean validSentence
    exact pySplit_sound _

/-- C9: both core operations terminate with linearly bounded work: the
boundary scan is a single pass whose output length is between the input
length and three times the input length for every configuration, every
previous character and every string (so the scan always reaches the
end-of-string sentinel), and the pathological one-punctuation-character
sentences `["."]` and `["!"]` are processed without error. -/
theorem spec_c9 :
    (∀ (cfg : PretokCfg) (s : List Char) (prev : Char),
      s.length ≤ (PreTokenize._pretok_gen cfg prev s).length ∧
      (PreTokenize._pretok_gen cfg prev s).length ≤ 3 * s.length) ∧
    PreTokenize._pre_tokenize defaultPretokCfg [['.']] = [['.']] ∧
    PreTokenize._pre_tokenize defaultPretokCfg [['!']] = [['!']] :=
  ⟨fun cfg s prev => pretok_gen_length cfg s prev, by decide, by decide⟩

/-- C10: for every configuration, the BoundaryTokenizer splits the final
character of a single plain word into its own token whenever it differs from
the character immediately before it: a word `w ++ [a, b]` of non-punctuation,
non-whitespace, non-NUL characters with `a ≠ b` tokenizes as
`[w ++ [a], [b]]`, the final letter becoming a separate one-character
token. -/
theorem spec_c10 (cfg : PretokCfg) (w : List Char) (a b : Char)
    (hw : ∀ c ∈ w ++ [a, b],
      pyIsSpace c = false ∧ pythonPunctuation.contains c = false ∧ c ≠ '\x00')
    (hab : a ≠ b) :
    PreTokenize._pre_tokenize cfg [w ++ [a, b]] = [w ++ [a], [b]] := by
  have hlist : ∀ x ∈ ([] : List (List Char)) ++ [w ++ [a, b]], x ≠ [] ∧ ∀ c ∈ x,
      pyIsSpace c = false ∧ pythonPunctuation.contains c = false ∧ c ≠ '\x00' := by
    intro x hx
    simp only [List.nil_append, List.mem_singleton] at hx
    subst hx
    exact ⟨by simp, hw⟩
  have h0 := pretok_last cfg [] (w ++ [a, b]) hlist
  simp only [List.nil_append] at h0
  rw [h0]
  have hshape : w ++ [a, b] = (w ++ [a]) ++ [b] := by simp
  have hchars : ∀ c ∈ (w ++ [a]) ++ [b],
      pyIsSpace c = false ∧ pythonPunctuation.contains c = false ∧ c ≠ '\x00' := by
    rw [← hshape]
    exact hw
  rw [hshape, last_tok cfg (w ++ [a]) b hchars]
  rw [if_neg (by rw [List.getLastD_concat]; exact hab), if_neg (by simp)]

/-- C10 witness: the single word `stop` tokenizes as `["sto", "p"]` under the
default configuration. -/
theorem spec_c10_witness :
    PreTokenize._pre_tokenize defaultPretokCfg [['s','t','o','p']] = [['s','t','o'], ['p']] :=
  spec_c10 defaultPretokCfg ['s','t'] 'o' 'p' (by decide) (by decide)
